import Mathlib

/-!
Verification of the ds-wgan `wgan_model.py` module.

We shallowly embed the parts of the code that the claims concern:

* `Generator.transform` models `Generator._transform` (clamp of continuous
  coordinates to the bounds tensor, per-block softmax of the categorical part).
* `gradient_penalty` models `Critic.gradient_penalty`, with the autograd
  gradient of the critic's summed output supplied as an oracle function `G`
  and the per-row interpolation coefficients as an explicit vector `alpha`.
* `trainBatchStep` / `trainLoop` / `testLoop` / `runEpoch` model the inner
  batch loop, test loop and the WD-averaging steps of `train`.
* `optTable` / `trainWithOptimizer` model the optimizer dictionary lookup
  in `train`.
* `Checkpoint`, `saveCheckpoint`, `loadCheckpoint`, `epochsRun`,
  `savedEpochs`, `completedAtSave` model checkpointing and the epoch loop
  `for epoch in range(start_epoch, max_epochs)`.
* `DF`, `dfDrop`, `dfSelect`, `apply_generator` model the pandas column
  operations of `DataWrapper.apply_generator`.

Tensors are modelled as lists of real numbers (rows as lists, batches as
lists of rows); machine floats are modelled by `ℝ`.
-/

/-- Splits a vector into contiguous blocks of the given widths, modelling
`tensor.split(cat_dims, -1)`. -/
def splitBlocks : List ℕ → List ℝ → List (List ℝ)
  | [], _ => []
  | d :: ds, xs => xs.take d :: splitBlocks ds (xs.drop d)

/-- Softmax `F.softmax(x, -1)` on a vector: normalized exponentials. -/
noncomputable def softmax (l : List ℝ) : List ℝ :=
  l.map (fun x => Real.exp x / (l.map Real.exp).sum)

/-- The data of a `Generator` that its `_transform` method uses: the two rows
of the bounds tensor `cont_bounds` (`lo = cont_bounds[0]`, `hi = cont_bounds[1]`,
so `d_cont = lo.length`) and the categorical block widths `cat_dims`. -/
structure Generator where
  lo : List ℝ
  hi : List ℝ
  cat_dims : List ℕ

/-- Model of `Generator._transform`: split `hidden` into its continuous part
(first `d_cont` coordinates) and categorical part; clamp the continuous part by
taking the elementwise max with the lower bounds and then the elementwise min
with the upper bounds; apply softmax to each categorical block; concatenate. -/
noncomputable def Generator.transform (g : Generator) (hidden : List ℝ) : List ℝ :=
  List.zipWith (fun x b => min x b)
    (List.zipWith (fun x b => max x b) (hidden.take g.lo.length) g.lo) g.hi
  ++ (List.map softmax (splitBlocks g.cat_dims (hidden.drop g.lo.length))).flatten

theorem min_max_clamp_comm (l h x : ℝ) (hlh : l ≤ h) :
    min (max x l) h = max (min x h) l := by
  rcases le_total x l with hxl | hlx
  · rw [max_eq_right hxl, min_eq_left hlh, min_eq_left (hxl.trans hlh), max_eq_right hxl]
  · rcases le_total x h with hxh | hhx
    · rw [max_eq_left hlx, min_eq_left hxh, max_eq_left hlx]
    · rw [max_eq_left hlx, min_eq_right hhx, max_eq_left hlh]

theorem clamp_spec :
    ∀ (v lo hi : List ℝ), v.length = lo.length → List.Forall₂ (· ≤ ·) lo hi →
      List.Forall₂ (· ≤ ·) lo
        (List.zipWith (fun x b => min x b) (List.zipWith (fun x b => max x b) v lo) hi)
      ∧ List.Forall₂ (· ≤ ·)
        (List.zipWith (fun x b => min x b) (List.zipWith (fun x b => max x b) v lo) hi) hi
      ∧ List.zipWith (fun x b => min x b) (List.zipWith (fun x b => max x b) v lo) hi
        = List.zipWith (fun x b => max x b) (List.zipWith (fun x b => min x b) v hi) lo := by
  intro v lo hi hlen hf
  induction hf generalizing v with
  | nil =>
    have : v = [] := List.length_eq_zero.mp hlen
    subst this
    exact ⟨List.Forall₂.nil, List.Forall₂.nil, rfl⟩
  | @cons l h lo' hi' hlh _ ih =>
    cases v with
    | nil => simp at hlen
    | cons x v' =>
      have hlen' : v'.length = lo'.length := by simpa using hlen
      obtain ⟨ih1, ih2, ih3⟩ := ih v' hlen'
      refine ⟨List.Forall₂.cons ?_ ih1, List.Forall₂.cons ?_ ih2, ?_⟩
      · exact le_min (le_max_right x l) hlh
      · exact min_le_right _ _
      · simpa [min_max_clamp_comm l h x hlh] using ih3

/-- C1: for every raw generator output and bounds with `lo ≤ hi` per column,
`Generator._transform` maps each continuous coordinate into `[lo, hi]`
inclusive, and the two-sided clamp is independent of the order in which the
two bounds are applied (max-with-lower then min-with-upper, as the code does,
equals min-with-upper then max-with-lower). -/
theorem C1_transform_clamps_continuous (g : Generator) (hidden : List ℝ)
    (hhilen : g.hi.length = g.lo.length)
    (hhid : g.lo.length ≤ hidden.length)
    (hbnd : List.Forall₂ (· ≤ ·) g.lo g.hi) :
    List.Forall₂ (· ≤ ·) g.lo ((g.transform hidden).take g.lo.length)
    ∧ List.Forall₂ (· ≤ ·) ((g.transform hidden).take g.lo.length) g.hi
    ∧ (g.transform hidden).take g.lo.length
      = List.zipWith (fun x b => max x b)
          (List.zipWith (fun x b => min x b) (hidden.take g.lo.length) g.hi) g.lo := by
  have hvlen : (hidden.take g.lo.length).length = g.lo.length := by
    rw [List.length_take]; omega
  have hc2len : (List.zipWith (fun x b => min x b)
      (List.zipWith (fun x b => max x b) (hidden.take g.lo.length) g.lo) g.hi).length
      = g.lo.length := by
    simp [List.length_zipWith, hvlen, hhilen]
  have htake : (g.transform hidden).take g.lo.length
      = List.zipWith (fun x b => min x b)
          (List.zipWith (fun x b => max x b) (hidden.take g.lo.length) g.lo) g.hi := by
    unfold Generator.transform
    exact List.take_left' hc2len
  obtain ⟨h1, h2, h3⟩ := clamp_spec (hidden.take g.lo.length) g.lo g.hi hvlen hbnd
  rw [htake]
  exact ⟨h1, h2, h3⟩

/-- Witness for C1 at a concrete input: bounds `[0] ≤ [1]`, raw output `[2]`. -/
theorem C1_transform_clamps_continuous_witness :
    (0 : ℝ) ≤ 1
    ∧ List.Forall₂ (· ≤ ·) [(0 : ℝ)] (((Generator.mk [0] [1] []).transform [2]).take 1)
    ∧ List.Forall₂ (· ≤ ·) (((Generator.mk [0] [1] []).transform [2]).take 1) [(1 : ℝ)] := by
  have h := C1_transform_clamps_continuous (Generator.mk [0] [1] []) [2] rfl
    (by norm_num) (List.Forall₂.cons (by norm_num) List.Forall₂.nil)
  exact ⟨by norm_num, h.1, h.2.1⟩

theorem sum_map_div_const (l : List ℝ) (f : ℝ → ℝ) (c : ℝ) :
    (l.map (fun x => f x / c)).sum = (l.map f).sum / c := by
  induction l with
  | nil => simp
  | cons a t ih => simp [ih, add_div]

theorem exp_sum_nonneg (l : List ℝ) : 0 ≤ (l.map Real.exp).sum := by
  apply List.sum_nonneg
  intro x hx
  obtain ⟨y, _, rfl⟩ := List.mem_map.1 hx
  exact (Real.exp_pos y).le

theorem exp_sum_pos (l : List ℝ) (h : l ≠ []) : 0 < (l.map Real.exp).sum := by
  cases l with
  | nil => exact absurd rfl h
  | cons a t =>
      simp only [List.map_cons, List.sum_cons]
      exact add_pos_of_pos_of_nonneg (Real.exp_pos a) (exp_sum_nonneg t)

theorem softmax_nonneg (l : List ℝ) : ∀ y ∈ softmax l, 0 ≤ y := by
  intro y hy
  obtain ⟨x, _, rfl⟩ := List.mem_map.1 hy
  exact div_nonneg (Real.exp_pos x).le (exp_sum_nonneg l)

theorem softmax_sum (l : List ℝ) (h : l ≠ []) : (softmax l).sum = 1 := by
  unfold softmax
  rw [sum_map_div_const]
  exact div_self (ne_of_gt (exp_sum_pos l h))

theorem softmax_length (l : List ℝ) : (softmax l).length = l.length := by
  simp [softmax]

theorem splitBlocks_flatten (dims : List ℕ) :
    ∀ l : List ℝ, dims.sum = l.length →
      splitBlocks dims ((List.map softmax (splitBlocks dims l)).flatten)
        = List.map softmax (splitBlocks dims l) := by
  induction dims with
  | nil => intro l _; rfl
  | cons d ds ih =>
      intro l h
      have hsum : d + ds.sum = l.length := by simpa using h
      have hlen : (softmax (l.take d)).length = d := by
        rw [softmax_length, List.length_take]; omega
      simp only [splitBlocks, List.map_cons, List.flatten_cons]
      rw [List.take_left' hlen, List.drop_left' hlen,
        ih (l.drop d) (by rw [List.length_drop]; omega)]

theorem splitBlocks_length_mem (dims : List ℕ) :
    ∀ (l : List ℝ), dims.sum = l.length → ∀ b ∈ splitBlocks dims l, b.length ∈ dims := by
  induction dims with
  | nil => intro l _ b hb; simp [splitBlocks] at hb
  | cons d ds ih =>
      intro l h b hb
      have hsum : d + ds.sum = l.length := by simpa using h
      simp only [splitBlocks, List.mem_cons] at hb
      rcases hb with rfl | hb
      · have : (l.take d).length = d := by rw [List.length_take]; omega
        rw [this]
        exact List.mem_cons_self _ _
      · exact List.mem_cons_of_mem _
          (ih (l.drop d) (by rw [List.length_drop]; omega) b hb)

/-- C2: `Generator._transform` splits the categorical part of the raw output
into contiguous blocks of widths `cat_dims` and applies softmax independently
to each, so every categorical block of the output has non-negative entries
summing to exactly 1. -/
theorem C2_transform_softmax_blocks (g : Generator) (hidden : List ℝ)
    (hhilen : g.hi.length = g.lo.length)
    (hlen : hidden.length = g.lo.length + g.cat_dims.sum)
    (hdims : ∀ d ∈ g.cat_dims, 0 < d) :
    ∀ b ∈ splitBlocks g.cat_dims ((g.transform hidden).drop g.lo.length),
      (∀ y ∈ b, 0 ≤ y) ∧ b.sum = 1 := by
  have hvlen : (hidden.take g.lo.length).length = g.lo.length := by
    rw [List.length_take]; omega
  have hc2len : (List.zipWith (fun x b => min x b)
      (List.zipWith (fun x b => max x b) (hidden.take g.lo.length) g.lo) g.hi).length
      = g.lo.length := by
    simp [List.length_zipWith, hvlen, hhilen]
  have hdlen : g.cat_dims.sum = (hidden.drop g.lo.length).length := by
    rw [List.length_drop]; omega
  have hdrop : (g.transform hidden).drop g.lo.length
      = (List.map softmax (splitBlocks g.cat_dims (hidden.drop g.lo.length))).flatten := by
    unfold Generator.transform
    exact List.drop_left' hc2len
  rw [hdrop, splitBlocks_flatten _ _ hdlen]
  intro b hb
  obtain ⟨b0, hb0, rfl⟩ := List.mem_map.1 hb
  refine ⟨softmax_nonneg b0, softmax_sum b0 ?_⟩
  have hbl : b0.length ∈ g.cat_dims := splitBlocks_length_mem _ _ hdlen b0 hb0
  exact List.length_pos.mp (hdims _ hbl)

/-- Witness for C2 at a concrete input: no continuous variables, one
categorical variable of cardinality 1, raw output `[0]`. -/
theorem C2_transform_softmax_blocks_witness :
    List.length [(0 : ℝ)] = List.length ([] : List ℝ) + List.sum [1]
    ∧ (∀ d ∈ [1], 0 < d)
    ∧ ∀ b ∈ splitBlocks [1] (((Generator.mk [] [] [1]).transform [0]).drop 0),
        (∀ y ∈ b, 0 ≤ y) ∧ b.sum = 1 := by
  refine ⟨by simp, by decide, ?_⟩
  exact C2_transform_softmax_blocks (Generator.mk [] [] [1]) [0] rfl (by simp) (by decide)

/-- Three-way zip, used to combine the per-row coefficient `alpha` with the
rows of `x` and `x_hat` (torch broadcasting of the `(batch, 1)` tensor
`alpha` over the columns). -/
def zipWith3 (f : ℝ → List ℝ → List ℝ → List ℝ) :
    List ℝ → List (List ℝ) → List (List ℝ) → List (List ℝ)
  | a :: as, b :: bs, c :: cs => f a b c :: zipWith3 f as bs cs
  | _, _, _ => []

/-- Model of `tensor.norm(2, dim=1)` on one row: the Euclidean norm. -/
noncomputable def rowNorm (row : List ℝ) : ℝ :=
  Real.sqrt ((row.map (fun t => t ^ 2)).sum)

/-- Model of `F.relu`. -/
noncomputable def relu (t : ℝ) : ℝ := max t 0

/-- Model of `tensor.mean()` over a batch of scalars. -/
noncomputable def mean (l : List ℝ) : ℝ := l.sum / l.length

/-- Model of `Critic.gradient_penalty`, with the per-row interpolation coefficients
`alpha` (drawn by the code from `torch.randn`) passed explicitly, and the
autograd gradient of the critic's summed output with respect to the
interpolated batch supplied as the oracle `G` (taking the interpolated batch
and the context batch, returning one gradient row per input row):
`interpolated = x * alpha + x_hat * (1 - alpha)` rowwise, then
`F.relu(gradients.norm(2, dim=1) - 1).mean()`. -/
noncomputable def gradient_penalty
    (G : List (List ℝ) → List (List ℝ) → List (List ℝ))
    (alpha : List ℝ) (x x_hat context : List (List ℝ)) : ℝ :=
  mean ((((G (zipWith3
      (fun a xr hr => List.zipWith (fun u v => u * a + v * (1 - a)) xr hr)
      alpha x x_hat) context).map rowNorm).map (fun n => relu (n - 1))))

/-- The gradient-penalty computation as the spec describes it: form
`interpolated = α·x + (1−α)·x̂`, evaluate the gradient oracle, take per-row
Euclidean norms, apply the one-sided penalty `max(0, norm − 1)`, return the
batch mean. -/
noncomputable def gradient_penalty_spec
    (G : List (List ℝ) → List (List ℝ) → List (List ℝ))
    (alpha : List ℝ) (x x_hat context : List (List ℝ)) : ℝ :=
  mean ((G (zipWith3
      (fun a xr hr => List.zipWith (fun u v => a * u + (1 - a) * v) xr hr)
      alpha x x_hat) context).map (fun r => max 0 (rowNorm r - 1)))

theorem zipWith3_congr (f g : ℝ → List ℝ → List ℝ → List ℝ)
    (h : ∀ a b c, f a b c = g a b c) :
    ∀ (as : List ℝ) (bs cs : List (List ℝ)), zipWith3 f as bs cs = zipWith3 g as bs cs := by
  intro as
  induction as with
  | nil => intro bs cs; cases bs <;> cases cs <;> rfl
  | cons a as ih =>
      intro bs cs
      cases bs with
      | nil => cases cs <;> rfl
      | cons b bs' =>
          cases cs with
          | nil => rfl
          | cons c cs' => simp [zipWith3, h, ih]

/-- C3: `Critic.gradient_penalty` computes exactly the pipeline the spec
describes: for every gradient oracle, coefficient vector, real batch,
generated batch and context, interpolating rowwise, taking per-row Euclidean
gradient norms, applying the one-sided penalty `max(0, norm − 1)` and
averaging over the batch gives the same value as the code's
`x * alpha + x_hat * (1 - alpha)` followed by `F.relu(‖grad‖₂ − 1).mean()`. -/
theorem C3_gradient_penalty_refines_spec
    (G : List (List ℝ) → List (List ℝ) → List (List ℝ))
    (alpha : List ℝ) (x x_hat context : List (List ℝ)) :
    gradient_penalty G alpha x x_hat context
      = gradient_penalty_spec G alpha x x_hat context := by
  unfold gradient_penalty gradient_penalty_spec
  rw [zipWith3_congr
    (fun a xr hr => List.zipWith (fun u v => u * a + v * (1 - a)) xr hr)
    (fun a xr hr => List.zipWith (fun u v => a * u + (1 - a) * v) xr hr)
    (by
      intro a b c
      have hfa : (fun u v : ℝ => u * a + v * (1 - a)) = fun u v : ℝ => a * u + (1 - a) * v := by
        funext u v; ring
      show List.zipWith (fun u v : ℝ => u * a + v * (1 - a)) b c
          = List.zipWith (fun u v : ℝ => a * u + (1 - a) * v) b c
      rw [hfa])]
  rw [List.map_map]
  apply congrArg
  apply List.map_congr_left
  intro r _
  simp [relu, max_comm]

/-- C8: the value of `Critic.gradient_penalty` is non-negative for every
real batch, generated batch and context batch of equal (positive) size,
whatever gradient rows the critic's autograd produces: the one-sided penalty
is floored at zero before averaging, and the mean of non-negative values is
non-negative. -/
theorem C8_gradient_penalty_nonneg
    (G : List (List ℝ) → List (List ℝ) → List (List ℝ))
    (alpha : List ℝ) (x x_hat context : List (List ℝ))
    (halpha : alpha.length = x.length)
    (hhat : x_hat.length = x.length)
    (hctx : context.length = x.length)
    (hpos : 0 < x.length)
    (hG : ∀ m c, (G m c).length = m.length) :
    0 ≤ gradient_penalty G alpha x x_hat context := by
  unfold gradient_penalty mean
  apply div_nonneg
  · apply List.sum_nonneg
    intro t ht
    obtain ⟨n, _, rfl⟩ := List.mem_map.1 ht
    exact le_max_right _ _
  · exact Nat.cast_nonneg _

/-- Witness for C8: identity gradient oracle, singleton batches. -/
theorem C8_gradient_penalty_nonneg_witness :
    List.length [(1 : ℝ)] = List.length [[(2 : ℝ)]]
    ∧ 0 < List.length [[(2 : ℝ)]]
    ∧ 0 ≤ gradient_penalty (fun m _ => m) [(1 : ℝ)] [[(2 : ℝ)]] [[(3 : ℝ)]] [[(0 : ℝ)]] := by
  refine ⟨rfl, by norm_num, ?_⟩
  exact C8_gradient_penalty_nonneg (fun m _ => m) [(1 : ℝ)] [[(2 : ℝ)]] [[(3 : ℝ)]] [[(0 : ℝ)]]
    rfl rfl rfl (by norm_num) (fun m _ => rfl)

/-- The oracle functions the training loop `train` applies each iteration:
`gen θg context` models `generator(context)`, `criticMean θc x context` models
`critic(x, context).mean()`, `gpen θc x x_hat context` models
`critic.gradient_penalty(x, x_hat, context)`, `gStep`/`cStep` model
`opt_generator.step()`/`opt_critic.step()` after backpropagating the given
loss, and `gpFactor` is `critic_gp_factor`. -/
structure TrainOracles (Tg Tc X C : Type) where
  gen : Tg → C → X
  criticMean : Tc → X → C → ℝ
  gpen : Tc → X → X → C → ℝ
  gStep : Tg → ℝ → Tg
  cStep : Tc → ℝ → Tc
  gpFactor : ℝ

/-- The mutable state of the inner batch loop of `train`: the global step
counter, the two parameter vectors, the accumulated training Wasserstein
distance `WD_train` and the critic-branch batch counter `n_batches`. -/
structure LoopState (Tg Tc : Type) where
  step : ℕ
  thetaG : Tg
  thetaC : Tc
  WD_train : ℝ
  n_batches : ℕ

/-- Model of `generator_update = step % s["critic_steps"] == 0`. -/
def generator_update (critic_steps step : ℕ) : Bool :=
  step % critic_steps == 0

/-- One iteration of the inner batch loop of `train`: select the branch by
`generator_update`; on the generator branch backpropagate
`loss = -critic(generator(context), context).mean()` and step the generator
optimizer; on the critic branch compute `WD = critic(x).mean() -
critic(x_hat).mean()`, backpropagate `loss = -WD + critic_gp_factor *
gradient_penalty`, step the critic optimizer, and accumulate `WD` and the
batch count; in both branches increment `step` by one. -/
def trainBatchStep {Tg Tc X C : Type} (critic_steps : ℕ) (o : TrainOracles Tg Tc X C)
    (st : LoopState Tg Tc) (batch : X × C) : LoopState Tg Tc :=
  if generator_update critic_steps st.step then
    { st with
      thetaG := o.gStep st.thetaG (-(o.criticMean st.thetaC (o.gen st.thetaG batch.2) batch.2)),
      step := st.step + 1 }
  else
    { st with
      thetaC := o.cStep st.thetaC
        (-(o.criticMean st.thetaC batch.1 batch.2
            - o.criticMean st.thetaC (o.gen st.thetaG batch.2) batch.2)
          + o.gpFactor * o.gpen st.thetaC batch.1 (o.gen st.thetaG batch.2) batch.2),
      WD_train := st.WD_train
        + (o.criticMean st.thetaC batch.1 batch.2
            - o.criticMean st.thetaC (o.gen st.thetaG batch.2) batch.2),
      n_batches := st.n_batches + 1,
      step := st.step + 1 }

/-- The inner batch loop of `train` over the shuffled training batches. -/
def trainLoop {Tg Tc X C : Type} (critic_steps : ℕ) (o : TrainOracles Tg Tc X C)
    (st : LoopState Tg Tc) (batches : List (X × C)) : LoopState Tg Tc :=
  batches.foldl (trainBatchStep critic_steps o) st

/-- The test loop of `train`: accumulate the per-batch Wasserstein estimate
and count the test batches. -/
def testLoop {Tg Tc X C : Type} (o : TrainOracles Tg Tc X C)
    (tg : Tg) (tc : Tc) (batches : List (X × C)) : ℝ × ℕ :=
  batches.foldl
    (fun acc batch =>
      (acc.1 + (o.criticMean tc batch.1 batch.2
          - o.criticMean tc (o.gen tg batch.2) batch.2), acc.2 + 1))
    (0, 0)

/-- Model of `WD_train /= n_batches` (and `WD_test /= n_batches`): a division whose
divisor is a batch count; dividing by a zero count raises
`ZeroDivisionError`, modelled by `none`. -/
noncomputable def averageWD (total : ℝ) (n : ℕ) : Option ℝ :=
  if n = 0 then none else some (total / n)

/-- One epoch of `train`: run the inner batch loop, average the accumulated
training WD over the critic-branch batch count, run the test loop, average
the test WD over the test batch count; `none` models the run aborting with a
`ZeroDivisionError`. -/
noncomputable def runEpoch {Tg Tc X C : Type} (critic_steps : ℕ)
    (o : TrainOracles Tg Tc X C) (st : LoopState Tg Tc)
    (trainBatches testBatches : List (X × C)) : Option (ℝ × ℝ) :=
  match averageWD (trainLoop critic_steps o st trainBatches).WD_train
      (trainLoop critic_steps o st trainBatches).n_batches with
  | none => none
  | some wdtr =>
    match averageWD
        (testLoop o (trainLoop critic_steps o st trainBatches).thetaG
          (trainLoop critic_steps o st trainBatches).thetaC testBatches).1
        (testLoop o (trainLoop critic_steps o st trainBatches).thetaG
          (trainLoop critic_steps o st trainBatches).thetaC testBatches).2 with
    | none => none
    | some wdte => some (wdtr, wdte)

/-- Trivial oracle instantiation used by concrete witnesses. -/
noncomputable def trivialOracles : TrainOracles Unit Unit Unit Unit where
  gen := fun _ _ => ()
  criticMean := fun _ _ _ => 0
  gpen := fun _ _ _ _ => 0
  gStep := fun tg _ => tg
  cStep := fun tc _ => tc
  gpFactor := 1

/-- C5: in the inner loop of `train`, the branch is the generator branch
exactly when `step % critic_steps == 0`, the global step counter increments
by exactly one on every inner batch iteration regardless of branch, the
critic-branch counter `n_batches` increments exactly on non-generator steps,
and over any `critic_steps` consecutive step values starting at a multiple of
`critic_steps` exactly one step value selects the generator branch. -/
theorem C5_alternating_schedule {Tg Tc X C : Type} (critic_steps : ℕ)
    (o : TrainOracles Tg Tc X C) (hk : 0 < critic_steps) :
    (∀ step, generator_update critic_steps step = true ↔ step % critic_steps = 0)
    ∧ (∀ (st : LoopState Tg Tc) (batch : X × C),
        (trainBatchStep critic_steps o st batch).step = st.step + 1)
    ∧ (∀ (st : LoopState Tg Tc) (batch : X × C),
        (trainBatchStep critic_steps o st batch).n_batches
          = if generator_update critic_steps st.step then st.n_batches
            else st.n_batches + 1)
    ∧ (∀ m, (List.range' (m * critic_steps) critic_steps).countP
        (generator_update critic_steps) = 1) := by
  refine ⟨?_, ?_, ?_, ?_⟩
  · intro step
    simp [generator_update]
  · intro st batch
    by_cases h : generator_update critic_steps st.step <;>
      simp [trainBatchStep, h]
  · intro st batch
    by_cases h : generator_update critic_steps st.step <;>
      simp [trainBatchStep, h]
  · intro m
    rw [List.range'_eq_map_range, List.countP_map]
    obtain ⟨k, rfl⟩ : ∃ k, critic_steps = k + 1 := ⟨critic_steps - 1, by omega⟩
    rw [List.range_succ_eq_map]
    rw [List.countP_cons_of_pos]
    · rw [List.countP_map]
      have hz : List.countP
          ((generator_update (k + 1) ∘ fun x => m * (k + 1) + x) ∘ Nat.succ)
          (List.range k) = 0 := by
        rw [List.countP_eq_zero]
        intro j hj
        have hjk : j < k := List.mem_range.mp hj
        simp only [Function.comp_apply, generator_update, Nat.succ_eq_add_one]
        have : (m * (k + 1) + (j + 1)) % (k + 1) = (j + 1) % (k + 1) := by
          rw [Nat.mul_comm]
          exact Nat.mul_add_mod (k + 1) m (j + 1)
        rw [this, Nat.mod_eq_of_lt (by omega)]
        simp
      rw [hz]
    · show generator_update (k + 1) (m * (k + 1) + 0) = true
      simp only [generator_update, Nat.add_zero]
      rw [Nat.mul_comm]
      simp [Nat.mul_mod_right]

/-- Witness for C5 at `critic_steps = 2` with trivial oracles. -/
theorem C5_alternating_schedule_witness :
    0 < 2
    ∧ ((∀ step, generator_update 2 step = true ↔ step % 2 = 0)
      ∧ (∀ (st : LoopState Unit Unit) (batch : Unit × Unit),
          (trainBatchStep 2 trivialOracles st batch).step = st.step + 1)
      ∧ (∀ (st : LoopState Unit Unit) (batch : Unit × Unit),
          (trainBatchStep 2 trivialOracles st batch).n_batches
            = if generator_update 2 st.step then st.n_batches else st.n_batches + 1)
      ∧ (∀ m, (List.range' (m * 2) 2).countP (generator_update 2) = 1)) :=
  ⟨by norm_num, C5_alternating_schedule 2 trivialOracles (by norm_num)⟩

/-- C6: on a critic-branch step the inner loop of `train` leaves the
generator parameters unchanged and steps only the critic optimizer with loss
`-(WD) + critic_gp_factor * gradient_penalty(x, x_hat, context)` where
`WD = critic(x, context).mean() - critic(x_hat, context).mean()`, and it
accumulates `WD` and the batch count; on a generator-branch step it leaves
the critic parameters, `WD_train` and `n_batches` unchanged and steps only
the generator optimizer with loss
`-critic(generator(context), context).mean()`. -/
theorem C6_branch_losses {Tg Tc X C : Type} (critic_steps : ℕ)
    (o : TrainOracles Tg Tc X C) (st : LoopState Tg Tc) (x : X) (c : C) :
    (generator_update critic_steps st.step = false →
      trainBatchStep critic_steps o st (x, c) =
        { step := st.step + 1,
          thetaG := st.thetaG,
          thetaC := o.cStep st.thetaC
            (-(o.criticMean st.thetaC x c - o.criticMean st.thetaC (o.gen st.thetaG c) c)
              + o.gpFactor * o.gpen st.thetaC x (o.gen st.thetaG c) c),
          WD_train := st.WD_train
            + (o.criticMean st.thetaC x c - o.criticMean st.thetaC (o.gen st.thetaG c) c),
          n_batches := st.n_batches + 1 })
    ∧ (generator_update critic_steps st.step = true →
      trainBatchStep critic_steps o st (x, c) =
        { step := st.step + 1,
          thetaG := o.gStep st.thetaG (-(o.criticMean st.thetaC (o.gen st.thetaG c) c)),
          thetaC := st.thetaC,
          WD_train := st.WD_train,
          n_batches := st.n_batches }) := by
  constructor
  · intro h
    simp [trainBatchStep, h]
  · intro h
    simp [trainBatchStep, h]

/-- Witness for C6: a critic-branch step (`step = 1`, `critic_steps = 2`)
with trivial oracles. -/
theorem C6_branch_losses_witness :
    generator_update 2 (1 : ℕ) = false
    ∧ trainBatchStep 2 trivialOracles (LoopState.mk 1 () () 0 0) ((), ())
      = LoopState.mk 2 () () (0 + (0 - 0)) (0 + 1) := by
  refine ⟨rfl, ?_⟩
  have h := (C6_branch_losses 2 trivialOracles (LoopState.mk 1 () () 0 0) () ()).1 rfl
  simpa [trivialOracles] using h

theorem testLoop_batch_count {Tg Tc X C : Type} (o : TrainOracles Tg Tc X C)
    (tg : Tg) (tc : Tc) (batches : List (X × C)) :
    (testLoop o tg tc batches).2 = batches.length := by
  suffices h : ∀ (acc : ℝ × ℕ),
      (batches.foldl
        (fun acc batch =>
          (acc.1 + (o.criticMean tc batch.1 batch.2
              - o.criticMean tc (o.gen tg batch.2) batch.2), acc.2 + 1))
        acc).2 = acc.2 + batches.length by
    simpa using h (0, 0)
  induction batches with
  | nil => intro acc; simp
  | cons b bs ih =>
      intro acc
      simp only [List.foldl_cons, List.length_cons]
      rw [ih]
      simp
      omega

/-- C7: if an epoch of `train` sees zero critic-branch training batches, or
zero test batches, the WD averaging step divides by zero and the epoch
aborts (`none`); if at least one critic-branch batch and at least one test
batch occur, this failure branch is unreachable and the epoch produces its
two averaged WD values. -/
theorem C7_wd_average_division {Tg Tc X C : Type} (critic_steps : ℕ)
    (o : TrainOracles Tg Tc X C) (st : LoopState Tg Tc)
    (trainBatches testBatches : List (X × C)) :
    ((trainLoop critic_steps o st trainBatches).n_batches = 0 →
      runEpoch critic_steps o st trainBatches testBatches = none)
    ∧ (testBatches = [] →
      runEpoch critic_steps o st trainBatches testBatches = none)
    ∧ (0 < (trainLoop critic_steps o st trainBatches).n_batches →
      testBatches ≠ [] →
      (runEpoch critic_steps o st trainBatches testBatches).isSome = true) := by
  refine ⟨?_, ?_, ?_⟩
  · intro h
    simp [runEpoch, averageWD, h]
  · intro h
    subst h
    unfold runEpoch
    rcases hav : averageWD (trainLoop critic_steps o st trainBatches).WD_train
        (trainLoop critic_steps o st trainBatches).n_batches with _ | wd
    · rfl
    · have hn : (testLoop o (trainLoop critic_steps o st trainBatches).thetaG
          (trainLoop critic_steps o st trainBatches).thetaC ([] : List (X × C))).2 = 0 := by
        rw [testLoop_batch_count]
        rfl
      simp [averageWD, hn]
  · intro h1 h2
    have hne : (trainLoop critic_steps o st trainBatches).n_batches ≠ 0 := by omega
    have htn : (testLoop o (trainLoop critic_steps o st trainBatches).thetaG
        (trainLoop critic_steps o st trainBatches).thetaC testBatches).2
        = testBatches.length := testLoop_batch_count _ _ _ _
    have htne : testBatches.length ≠ 0 := by
      intro hc
      exact h2 (List.length_eq_zero.mp hc)
    unfold runEpoch
    simp [averageWD, hne, htn, htne]

/-- Witness for C7: one critic-branch training batch, one test batch. -/
theorem C7_wd_average_division_witness :
    0 < (trainLoop 2 trivialOracles (LoopState.mk 1 () () 0 0) [((), ())]).n_batches
    ∧ ([((), ())] : List (Unit × Unit)) ≠ []
    ∧ (runEpoch 2 trivialOracles (LoopState.mk 1 () () 0 0)
        [((), ())] [((), ())]).isSome = true := by
  have hn : 0 < (trainLoop 2 trivialOracles (LoopState.mk 1 () () 0 0)
      [((), ())]).n_batches := by
    simp [trainLoop, trainBatchStep, generator_update]
  have hne : ([((), ())] : List (Unit × Unit)) ≠ [] := by simp
  exact ⟨hn, hne,
    (C7_wd_average_division 2 trivialOracles (LoopState.mk 1 () () 0 0)
      [((), ())] [((), ())]).2.2 hn hne⟩

/-- The checkpoint bundle persisted by `train` via `torch.save`:
`{"epoch": epoch, "step": step, "generator_state_dict": ...,
"critic_state_dict": ..., "opt_generator_state_dict": ...,
"opt_critic_state_dict": ...}`. `P` is the type of network state dicts and
`Q` the type of optimizer state dicts. -/
structure Checkpoint (P Q : Type) where
  epoch : ℕ
  step : ℕ
  generator_state_dict : P
  critic_state_dict : P
  opt_generator_state_dict : Q
  opt_critic_state_dict : Q

/-- The `torch.save({...})` call at the end of an epoch of `train`. -/
def saveCheckpoint {P Q : Type} (epoch step : ℕ) (g c : P) (og oc : Q) :
    Checkpoint P Q :=
  { epoch := epoch, step := step, generator_state_dict := g,
    critic_state_dict := c, opt_generator_state_dict := og,
    opt_critic_state_dict := oc }

/-- The load block of `train`: `load_state_dict` on both networks and both
optimizers, then `start_epoch, step = cp["epoch"], cp["step"]`. -/
def loadCheckpoint {P Q : Type} (cp : Checkpoint P Q) : ℕ × ℕ × P × P × Q × Q :=
  (cp.epoch, cp.step, cp.generator_state_dict, cp.critic_state_dict,
    cp.opt_generator_state_dict, cp.opt_critic_state_dict)

/-- The epoch indices executed by `for epoch in range(start_epoch, max_epochs)`. -/
def epochsRun (start_epoch max_epochs : ℕ) : List ℕ :=
  List.range' start_epoch (max_epochs - start_epoch)

/-- The epochs at which `train` writes a checkpoint (when `save_checkpoint`
is enabled): the executed epochs `e` with `epoch % save_every == 0`; the
checkpoint written there records `epoch = e` and is written at the end of the
body of epoch `e`. -/
def savedEpochs (start_epoch max_epochs save_every : ℕ) : List ℕ :=
  (epochsRun start_epoch max_epochs).filter (fun e => e % save_every == 0)

/-- The epochs whose loop body has fully completed when the checkpoint of
epoch `e` is written: the save is the last statement of the body of epoch
`e`, so epochs `start_epoch .. e` inclusive are complete. -/
def completedAtSave (start_epoch e : ℕ) : List ℕ :=
  List.range' start_epoch (e + 1 - start_epoch)

/-- C4 as claimed: for a training run `[start_epoch, max_epochs)` with
checkpointing every `save_every` epochs, resuming from any written
checkpoint (whose recorded epoch becomes the new `start_epoch`) re-runs no
epoch that had already completed when that checkpoint was written, and skips
no epoch of the original range. -/
def resumeNoRepeatNoSkip (start_epoch max_epochs save_every : ℕ) : Prop :=
  ∀ e ∈ savedEpochs start_epoch max_epochs save_every,
    (∀ ep ∈ completedAtSave start_epoch e, ep ∉ epochsRun e max_epochs)
    ∧ (∀ ep ∈ epochsRun start_epoch max_epochs,
        ep ∈ completedAtSave start_epoch e ∨ ep ∈ epochsRun e max_epochs)

/-- Counterexample to C4: with `start_epoch = 0`, `max_epochs = 2`,
`save_every = 1`, the checkpoint written at the end of epoch 0 records
`epoch = 0`, and resuming from it re-runs epoch 0, which had already
completed — so the resumed training repeats an epoch. -/
theorem C4_resume_repeats_epoch_counterexample :
    ¬ resumeNoRepeatNoSkip 0 2 1 := by
  intro h
  have h0 : (0 : ℕ) ∈ savedEpochs 0 2 1 := by decide
  have h1 := (h 0 h0).1 0 (by decide)
  exact h1 (by decide)

/-- C4, amended: saving then loading a checkpoint restores parameter tensors
and optimizer state identical to those saved and resumes the epoch loop at
exactly the recorded epoch and step; but because the checkpoint is written at
the end of the epoch it records, the resumed run repeats exactly that one
already-completed epoch (and skips none). -/
theorem C4_checkpoint_roundtrip_amended {P Q : Type} (g c : P) (og oc : Q)
    (start_epoch max_epochs save_every e step : ℕ)
    (he : e ∈ savedEpochs start_epoch max_epochs save_every) :
    loadCheckpoint (saveCheckpoint e step g c og oc) = (e, step, g, c, og, oc)
    ∧ (epochsRun e max_epochs).head? = some e
    ∧ (∀ ep ∈ completedAtSave start_epoch e,
        (ep ∈ epochsRun e max_epochs ↔ ep = e))
    ∧ (∀ ep ∈ epochsRun start_epoch max_epochs,
        ep ∈ completedAtSave start_epoch e ∨ ep ∈ epochsRun e max_epochs) := by
  have hmem : e ∈ epochsRun start_epoch max_epochs :=
    List.mem_of_mem_filter he
  have hrange : start_epoch ≤ e ∧ e < start_epoch + (max_epochs - start_epoch) := by
    simpa [epochsRun] using List.mem_range'_1.mp (by simpa [epochsRun] using hmem)
  have hlt : e < max_epochs := by omega
  refine ⟨rfl, ?_, ?_, ?_⟩
  · have : max_epochs - e = (max_epochs - e - 1) + 1 := by omega
    rw [epochsRun, this, List.range'_succ]
    rfl
  · intro ep hep
    have hep' : start_epoch ≤ ep ∧ ep < start_epoch + (e + 1 - start_epoch) := by
      simpa [completedAtSave] using List.mem_range'_1.mp
        (by simpa [completedAtSave] using hep)
    constructor
    · intro hrun
      have hrun' : e ≤ ep ∧ ep < e + (max_epochs - e) := by
        simpa [epochsRun] using List.mem_range'_1.mp (by simpa [epochsRun] using hrun)
      omega
    · intro hepe
      subst hepe
      have hself : ep ∈ List.range' ep (max_epochs - ep) :=
        List.mem_range'_1.mpr ⟨le_refl ep, by omega⟩
      simpa [epochsRun] using hself
  · intro ep hep
    have hep' : start_epoch ≤ ep ∧ ep < start_epoch + (max_epochs - start_epoch) := by
      simpa [epochsRun] using List.mem_range'_1.mp (by simpa [epochsRun] using hep)
    by_cases hle : ep ≤ e
    · left
      have hc : ep ∈ List.range' start_epoch (e + 1 - start_epoch) :=
        List.mem_range'_1.mpr ⟨by omega, by omega⟩
      simpa [completedAtSave] using hc
    · right
      have hc : ep ∈ List.range' e (max_epochs - e) :=
        List.mem_range'_1.mpr ⟨by omega, by omega⟩
      simpa [epochsRun] using hc

/-- Witness for the amended C4 at a concrete run. -/
theorem C4_checkpoint_roundtrip_amended_witness :
    (0 : ℕ) ∈ savedEpochs 0 2 1
    ∧ loadCheckpoint (saveCheckpoint 0 7 (3 : ℕ) 4 (5 : ℕ) 6) = (0, 7, 3, 4, 5, 6)
    ∧ (epochsRun 0 2).head? = some 0 := by
  have h := C4_checkpoint_roundtrip_amended (P := ℕ) (Q := ℕ) 3 4 5 6 0 2 1 0 7 (by decide)
  exact ⟨by decide, h.1, h.2.1⟩

/-- The two optimizer classes of the lookup table in `train`. -/
inductive Optimizer where
  | adamHD : Optimizer
  | adam : Optimizer

/-- The dictionary lookup
`{"AdamHD": AdamHD, "Adam": torch.optim.Adam}[s["optimizer"]]`: a missing key
raises `KeyError`, modelled by `none`. -/
def optTable (name : String) : Option Optimizer :=
  if name = "AdamHD" then some Optimizer.adamHD
  else if name = "Adam" then some Optimizer.adam
  else none

/-- Model of `train` after its optimizer lookup: the lookup happens in the setup
block, before the data split and before the epoch loop, so the rest of the
run (`body`, covering optimizer construction, batching and every training
step) executes only if the lookup succeeded. -/
def trainWithOptimizer {A : Type} (name : String) (body : Optimizer → A) :
    Option A :=
  match optTable name with
  | none => none
  | some opt => some (body opt)

/-- C9: if the configured optimizer name is neither `"Adam"` nor `"AdamHD"`,
the run fails immediately at the lookup — whatever the rest of training would
do, nothing of it runs and no default optimizer is silently substituted. -/
theorem C9_unknown_optimizer_fails {A : Type} (name : String)
    (body : Optimizer → A)
    (hAdam : name ≠ "Adam") (hAdamHD : name ≠ "AdamHD") :
    trainWithOptimizer name body = none := by
  unfold trainWithOptimizer optTable
  rw [if_neg hAdamHD, if_neg hAdam]

/-- Witness for C9 with the unrecognized name `"SGD"`. -/
theorem C9_unknown_optimizer_fails_witness :
    "SGD" ≠ "Adam" ∧ "SGD" ≠ "AdamHD"
    ∧ trainWithOptimizer "SGD" (fun _ => (0 : ℕ)) = none := by
  refine ⟨by decide, by decide, ?_⟩
  exact C9_unknown_optimizer_fails "SGD" (fun _ => (0 : ℕ)) (by decide) (by decide)

/-- A pandas DataFrame, modelled as its ordered list of (column name,
column values) pairs; column values are lists of reals (row order). -/
abbrev DF := List (String × List ℝ)

/-- Model of `df.columns`. -/
def dfColumns (d : DF) : List String := d.map Prod.fst

/-- The values of column `n` of `d` (`df[n]`): first matching column. -/
def dfLookup (n : String) : DF → Option (List ℝ)
  | [] => none
  | p :: t => if p.1 = n then some p.2 else dfLookup n t

/-- Model of `df.drop(names, axis=1)`. -/
def dfDrop (d : DF) (names : List String) : DF :=
  d.filter (fun p => decide (p.1 ∉ names))

/-- Model of `df[names]`: select the listed columns in the listed order. -/
def dfSelect (d : DF) (names : List String) : DF :=
  names.filterMap (fun n => (dfLookup n d).map (fun v => (n, v)))

/-- Model of `DataWrapper.apply_generator`, given the already-generated and deprocessed
frame `df_hat` (whose columns are, in order, the continuous, categorical and
context variables) and the input frame `df`: remember `original_columns =
df.columns`; set `updated = continuous + categorical` and `not_updated` to the
columns of `df_hat` not in `updated`; drop `not_updated` from `df_hat` and
`updated` from `df`; join the two frames row-aligned (`df_hat`'s columns
first, as in `df_hat.join(df)`); reorder to `original_columns`. -/
def apply_generator (df_hat df : DF)
    (continuous categorical context : List String) : DF :=
  dfSelect
    (dfDrop df_hat
        ((dfColumns df_hat).filter
          (fun c => decide (c ∉ continuous ++ categorical)))
      ++ dfDrop df (continuous ++ categorical))
    (dfColumns df)

theorem dfLookup_isSome_iff (n : String) (d : DF) :
    (dfLookup n d).isSome = true ↔ n ∈ dfColumns d := by
  induction d with
  | nil => simp [dfLookup, dfColumns]
  | cons p t ih =>
      by_cases h : p.1 = n
      · simp [dfLookup, dfColumns, h]
      · simp only [dfLookup, dfColumns, List.map_cons, List.mem_cons, if_neg h]
        rw [ih]
        constructor
        · intro hm
          exact Or.inr hm
        · rintro (hm | hm)
          · exact absurd hm.symm h
          · exact hm

theorem dfLookup_append_some (n : String) (a b : DF) (v : List ℝ)
    (h : dfLookup n a = some v) : dfLookup n (a ++ b) = some v := by
  induction a with
  | nil => simp [dfLookup] at h
  | cons p t ih =>
      by_cases hp : p.1 = n
      · simp only [dfLookup, if_pos hp] at h
        simp [dfLookup, hp, h]
      · simp only [dfLookup, if_neg hp] at h
        simp [dfLookup, hp, ih h]

theorem dfLookup_append_none (n : String) (a b : DF)
    (h : dfLookup n a = none) : dfLookup n (a ++ b) = dfLookup n b := by
  induction a with
  | nil => simp
  | cons p t ih =>
      by_cases hp : p.1 = n
      · simp [dfLookup, if_pos hp] at h
      · simp only [dfLookup, if_neg hp] at h
        simp [dfLookup, hp, ih h]

theorem dfLookup_dfDrop_not_mem (n : String) (d : DF) (names : List String)
    (h : n ∉ names) : dfLookup n (dfDrop d names) = dfLookup n d := by
  induction d with
  | nil => rfl
  | cons p t ih =>
      by_cases hmem : p.1 ∈ names
      · have hfc : dfDrop (p :: t) names = dfDrop t names := by
          simp [dfDrop, List.filter_cons, hmem]
        have hpn : p.1 ≠ n := fun he => h (he ▸ hmem)
        rw [hfc, ih]
        simp [dfLookup, hpn]
      · have hfc : dfDrop (p :: t) names = p :: dfDrop t names := by
          simp [dfDrop, List.filter_cons, hmem]
        rw [hfc]
        by_cases hp : p.1 = n
        · simp [dfLookup, hp]
        · simp [dfLookup, hp, ih]

theorem dfLookup_dfDrop_mem (n : String) (d : DF) (names : List String)
    (h : n ∈ names) : dfLookup n (dfDrop d names) = none := by
  induction d with
  | nil => rfl
  | cons p t ih =>
      by_cases hmem : p.1 ∈ names
      · have hfc : dfDrop (p :: t) names = dfDrop t names := by
          simp [dfDrop, List.filter_cons, hmem]
        rw [hfc]
        exact ih
      · have hfc : dfDrop (p :: t) names = p :: dfDrop t names := by
          simp [dfDrop, List.filter_cons, hmem]
        have hpn : p.1 ≠ n := fun he => hmem (he ▸ h)
        rw [hfc]
        simp [dfLookup, hpn, ih]

theorem dfLookup_dfSelect_none (n : String) (d : DF) (names : List String)
    (h : dfLookup n d = none) : dfLookup n (dfSelect d names) = none := by
  induction names with
  | nil => rfl
  | cons m ms ih =>
      rcases hm : dfLookup m d with _ | v
      · simpa [dfSelect, List.filterMap_cons, hm] using ih
      · simp only [dfSelect, List.filterMap_cons, hm, Option.map_some']
        by_cases hnm : m = n
        · subst hnm
          rw [hm] at h
          exact absurd h (by simp)
        · simp only [dfLookup, if_neg hnm]
          simpa [dfSelect] using ih

theorem dfLookup_dfSelect_mem (n : String) (d : DF) (names : List String)
    (h : n ∈ names) : dfLookup n (dfSelect d names) = dfLookup n d := by
  induction names with
  | nil => simp at h
  | cons m ms ih =>
      rcases hm : dfLookup m d with _ | v
      · by_cases hnm : m = n
        · subst hnm
          have hsel : dfSelect d (m :: ms) = dfSelect d ms := by
            simp [dfSelect, List.filterMap_cons, hm]
          rw [hsel, dfLookup_dfSelect_none m d ms hm, hm]
        · have hn' : n ∈ ms := by
            rcases List.mem_cons.mp h with h1 | h1
            · exact absurd h1.symm hnm
            · exact h1
          simpa [dfSelect, List.filterMap_cons, hm] using ih hn'
      · simp only [dfSelect, List.filterMap_cons, hm, Option.map_some']
        by_cases hnm : m = n
        · subst hnm
          simp [dfLookup, hm]
        · have hn' : n ∈ ms := by
            rcases List.mem_cons.mp h with h1 | h1
            · exact absurd h1.symm hnm
            · exact h1
          simp only [dfLookup, if_neg hnm]
          simpa [dfSelect] using ih hn'

theorem dfColumns_dfSelect (d : DF) (names : List String)
    (h : ∀ n ∈ names, (dfLookup n d).isSome = true) :
    dfColumns (dfSelect d names) = names := by
  induction names with
  | nil => rfl
  | cons m ms ih =>
      have hm : (dfLookup m d).isSome = true := h m (List.mem_cons_self m ms)
      rcases hv : dfLookup m d with _ | v
      · rw [hv] at hm
        simp at hm
      · simp only [dfSelect, List.filterMap_cons, hv, Option.map_some']
        simp only [dfColumns, List.map_cons]
        have := ih (fun n hn => h n (List.mem_cons_of_mem m hn))
        simpa [dfSelect, dfColumns] using this

/-- C10: for every input frame `df` containing the declared generated
columns, and every generated-and-deprocessed frame `df_hat` whose columns
are the continuous, categorical and context variables in order,
`DataWrapper.apply_generator` returns a frame with exactly `df`'s columns in
`df`'s order, in which the declared continuous and categorical columns carry
the generated values (those of `df_hat`) and every other column (context
variables and extra columns) keeps its original values from `df`. -/
theorem C10_apply_generator_frame (df_hat df : DF)
    (continuous categorical context : List String)
    (hcols : dfColumns df_hat = continuous ++ categorical ++ context)
    (hdf : ∀ n ∈ continuous ++ categorical, n ∈ dfColumns df) :
    dfColumns (apply_generator df_hat df continuous categorical context)
      = dfColumns df
    ∧ ∀ n ∈ dfColumns df,
        dfLookup n (apply_generator df_hat df continuous categorical context)
          = if n ∈ continuous ++ categorical then dfLookup n df_hat
            else dfLookup n df := by
  have key : ∀ n : String,
      dfLookup n
          (dfDrop df_hat
              ((dfColumns df_hat).filter
                (fun c => decide (c ∉ continuous ++ categorical)))
            ++ dfDrop df (continuous ++ categorical))
        = if n ∈ continuous ++ categorical then dfLookup n df_hat
          else dfLookup n df := by
    intro n
    by_cases hn : n ∈ continuous ++ categorical
    · rw [if_pos hn]
      have hnot : n ∉ (dfColumns df_hat).filter
          (fun c => decide (c ∉ continuous ++ categorical)) := by
        intro hc
        have h2 := (List.mem_filter.mp hc).2
        simp only [decide_eq_true_eq] at h2
        exact h2 hn
      have hh : dfLookup n (dfDrop df_hat
          ((dfColumns df_hat).filter
            (fun c => decide (c ∉ continuous ++ categorical))))
          = dfLookup n df_hat := dfLookup_dfDrop_not_mem n df_hat _ hnot
      have hmemhat : n ∈ dfColumns df_hat := by
        rw [hcols]
        exact List.mem_append_left _ hn
      obtain ⟨v, hv⟩ := Option.isSome_iff_exists.mp
        ((dfLookup_isSome_iff n df_hat).mpr hmemhat)
      rw [hv] at hh
      rw [dfLookup_append_some n _ _ v hh, hv]
    · rw [if_neg hn]
      have hhnone : dfLookup n (dfDrop df_hat
          ((dfColumns df_hat).filter
            (fun c => decide (c ∉ continuous ++ categorical))))
          = none := by
        by_cases hmemhat : n ∈ dfColumns df_hat
        · exact dfLookup_dfDrop_mem n df_hat _
            (List.mem_filter.mpr ⟨hmemhat, by simpa using hn⟩)
        · have hnot : n ∉ (dfColumns df_hat).filter
              (fun c => decide (c ∉ continuous ++ categorical)) := by
            intro hc
            exact hmemhat (List.mem_filter.mp hc).1
          rw [dfLookup_dfDrop_not_mem n df_hat _ hnot]
          by_contra hne
          exact hmemhat ((dfLookup_isSome_iff n df_hat).mp
            (Option.ne_none_iff_isSome.mp hne))
      rw [dfLookup_append_none n _ _ hhnone]
      exact dfLookup_dfDrop_not_mem n df _ hn
  have hsomeall : ∀ n ∈ dfColumns df,
      (dfLookup n
          (dfDrop df_hat
              ((dfColumns df_hat).filter
                (fun c => decide (c ∉ continuous ++ categorical)))
            ++ dfDrop df (continuous ++ categorical))).isSome = true := by
    intro n hn
    rw [key n]
    by_cases hu : n ∈ continuous ++ categorical
    · rw [if_pos hu]
      apply (dfLookup_isSome_iff n df_hat).mpr
      rw [hcols]
      exact List.mem_append_left _ hu
    · rw [if_neg hu]
      exact (dfLookup_isSome_iff n df).mpr hn
  constructor
  · exact dfColumns_dfSelect _ _ hsomeall
  · intro n hn
    rw [apply_generator, dfLookup_dfSelect_mem n _ _ hn]
    exact key n

/-- Witness for C10 on a concrete frame: `df` has a generated column `"a"`,
a context column `"c"` and an extra column `"z"`; `df_hat` carries the
generated `"a"` and the context `"c"`. -/
theorem C10_apply_generator_frame_witness :
    dfColumns [("a", [(9 : ℝ)]), ("c", [(2 : ℝ)])] = ["a"] ++ [] ++ ["c"]
    ∧ (∀ n ∈ ["a"] ++ ([] : List String), n ∈
        dfColumns [("a", [(1 : ℝ)]), ("c", [(2 : ℝ)]), ("z", [(3 : ℝ)])])
    ∧ dfColumns (apply_generator [("a", [(9 : ℝ)]), ("c", [(2 : ℝ)])]
        [("a", [(1 : ℝ)]), ("c", [(2 : ℝ)]), ("z", [(3 : ℝ)])] ["a"] [] ["c"])
      = dfColumns [("a", [(1 : ℝ)]), ("c", [(2 : ℝ)]), ("z", [(3 : ℝ)])] := by
  refine ⟨rfl, by simp [dfColumns], ?_⟩
  exact (C10_apply_generator_frame [("a", [(9 : ℝ)]), ("c", [(2 : ℝ)])]
    [("a", [(1 : ℝ)]), ("c", [(2 : ℝ)]), ("z", [(3 : ℝ)])] ["a"] [] ["c"]
    rfl (by simp [dfColumns])).1
